import Mathlib

/-!
# Bi-temporal record store: a shallow embedding

A Lean model of the bi-temporal clinical record store implemented in
`temporal_db.py` (class `TemporalDB`): the versioned-record data model, the
aliveness predicate `_is_alive_at`, the point query `query_value`, the range
query `query_history`, and the mutations `update_value` / `delete_value`.
Timestamps are modelled as pairs of a proleptic-Gregorian ordinal day and a
time-of-day; the record store is a list of records, and the in-place closing
of a record (`rec.system_to = t`) becomes a positional `List.set`.
-/

namespace TemporalSpec

/-- Model of a Python `datetime`: `day` is the proleptic-Gregorian ordinal of
the calendar date (`datetime.min`, i.e. 0001-01-01, has ordinal 1) and `tod`
the time of day in microseconds since midnight.  Python compares datetimes
lexicographically by date then time of day, and `.date()` / `.time()` project
the two components. -/
structure DateTime where
  day : Nat
  tod : Nat
deriving DecidableEq

/-- `a <= b` on Python datetimes: lexicographic on (date, time-of-day). -/
def DateTime.Le (a b : DateTime) : Prop :=
  a.day < b.day ∨ (a.day = b.day ∧ a.tod ≤ b.tod)

/-- `a < b` on Python datetimes: lexicographic on (date, time-of-day). -/
def DateTime.Lt (a b : DateTime) : Prop :=
  a.day < b.day ∨ (a.day = b.day ∧ a.tod < b.tod)

instance (a b : DateTime) : Decidable (DateTime.Le a b) := by
  unfold DateTime.Le; infer_instance

instance (a b : DateTime) : Decidable (DateTime.Lt a b) := by
  unfold DateTime.Lt; infer_instance

theorem DateTime.le_refl (a : DateTime) : DateTime.Le a a :=
  Or.inr ⟨rfl, Nat.le_refl _⟩

theorem DateTime.le_trans {a b c : DateTime} (h1 : DateTime.Le a b)
    (h2 : DateTime.Le b c) : DateTime.Le a c := by
  obtain ⟨d1, t1⟩ := a; obtain ⟨d2, t2⟩ := b; obtain ⟨d3, t3⟩ := c
  simp only [DateTime.Le] at *; omega

theorem DateTime.le_of_lt {a b : DateTime} (h : DateTime.Lt a b) :
    DateTime.Le a b := by
  obtain ⟨d1, t1⟩ := a; obtain ⟨d2, t2⟩ := b
  simp only [DateTime.Le, DateTime.Lt] at *; omega

theorem DateTime.not_lt_iff {a b : DateTime} :
    ¬ DateTime.Lt a b ↔ DateTime.Le b a := by
  obtain ⟨d1, t1⟩ := a; obtain ⟨d2, t2⟩ := b
  simp only [DateTime.Le, DateTime.Lt]; omega

theorem DateTime.not_le_iff {a b : DateTime} :
    ¬ DateTime.Le a b ↔ DateTime.Lt b a := by
  obtain ⟨d1, t1⟩ := a; obtain ⟨d2, t2⟩ := b
  simp only [DateTime.Le, DateTime.Lt]; omega

theorem DateTime.le_total (a b : DateTime) :
    DateTime.Le a b ∨ DateTime.Le b a := by
  obtain ⟨d1, t1⟩ := a; obtain ⟨d2, t2⟩ := b
  simp only [DateTime.Le]; omega

theorem DateTime.le_antisymm {a b : DateTime} (h1 : DateTime.Le a b)
    (h2 : DateTime.Le b a) : a = b := by
  obtain ⟨d1, t1⟩ := a; obtain ⟨d2, t2⟩ := b
  simp only [DateTime.Le, DateTime.mk.injEq] at *; omega

theorem DateTime.lt_of_le_ne {a b : DateTime} (h1 : DateTime.Le a b)
    (h2 : a ≠ b) : DateTime.Lt a b := by
  obtain ⟨d1, t1⟩ := a; obtain ⟨d2, t2⟩ := b
  simp only [DateTime.Le, DateTime.Lt, ne_eq, DateTime.mk.injEq] at *; omega

instance : IsTotal DateTime DateTime.Le := ⟨DateTime.le_total⟩

instance : IsTrans DateTime DateTime.Le := ⟨fun _ _ _ => DateTime.le_trans⟩

/-- Python's `datetime.min`: ordinal 1 (0001-01-01), midnight — the earliest
representable Python timestamp. -/
def dtMin : DateTime := ⟨1, 0⟩

/-- Python's `datetime(1900, 1, 1)`: ordinal 693596 — the sentinel default
lower transaction-time bound used by `query_history`. -/
def epoch1900 : DateTime := ⟨693596, 0⟩

/-- One row of the spreadsheet-backed store: a single version of a
measurement (`TemporalRecord` in `temporal_db.py`). -/
structure TemporalRecord where
  first_name : String
  last_name : String
  loinc_num : String
  value : String
  unit : String
  valid_time : DateTime
  system_from : DateTime
  system_to : Option DateTime
deriving DecidableEq

/-- The mutable state of `TemporalDB`: the clock, the record list, and the
LOINC code → long-common-name catalog (an association list standing for the
Python dict). -/
structure TemporalDB where
  current_time : DateTime
  records : List TemporalRecord
  loinc_name : List (String × String)
deriving DecidableEq

/-- `TemporalDB._is_alive_at`: whether a version is the system's belief at
transaction instant `t`. -/
def is_alive_at (rec : TemporalRecord) (t : DateTime) : Bool :=
  if DateTime.Lt t rec.system_from then false
  else
    match rec.system_to with
    | some st => if DateTime.Le st t then false else true
    | none => true

/-- Python's `max(l, key=k)` over datetime keys: `none` on an empty list,
otherwise the first element attaining the greatest key (the left fold
replaces the running best only on a strictly greater key, exactly as
CPython's `max` does). -/
def pyMaxBy {α : Type} (key : α → DateTime) : List α → Option α
  | [] => none
  | x :: xs =>
    some (xs.foldl (fun best y =>
      if DateTime.Lt (key best) (key y) then y else best) x)

theorem pyMaxBy_foldl_mem {α : Type} (key : α → DateTime) (l : List α)
    (b : α) :
    l.foldl (fun best y => if DateTime.Lt (key best) (key y) then y else best)
        b = b ∨
      l.foldl (fun best y => if DateTime.Lt (key best) (key y) then y
        else best) b ∈ l := by
  induction l generalizing b with
  | nil => exact Or.inl rfl
  | cons y ys ih =>
    simp only [List.foldl_cons, List.mem_cons]
    rcases ih (if DateTime.Lt (key b) (key y) then y else b) with h | h
    · rw [h]
      by_cases hlt : DateTime.Lt (key b) (key y)
      · simp [hlt]
      · simp [hlt]
    · exact Or.inr (Or.inr h)

theorem pyMaxBy_foldl_ge {α : Type} (key : α → DateTime) (l : List α)
    (b : α) :
    DateTime.Le (key b)
        (key (l.foldl (fun best y =>
          if DateTime.Lt (key best) (key y) then y else best) b)) ∧
      ∀ z ∈ l, DateTime.Le (key z)
        (key (l.foldl (fun best y =>
          if DateTime.Lt (key best) (key y) then y else best) b)) := by
  induction l generalizing b with
  | nil => exact ⟨DateTime.le_refl _, by simp⟩
  | cons y ys ih =>
    simp only [List.foldl_cons, List.mem_cons]
    obtain ⟨ih1, ih2⟩ := ih (if DateTime.Lt (key b) (key y) then y else b)
    have hby : DateTime.Le (key b)
        (key (if DateTime.Lt (key b) (key y) then y else b)) := by
      by_cases hlt : DateTime.Lt (key b) (key y)
      · simpa [hlt] using DateTime.le_of_lt hlt
      · simp [hlt, DateTime.le_refl]
    have hyy : DateTime.Le (key y)
        (key (if DateTime.Lt (key b) (key y) then y else b)) := by
      by_cases hlt : DateTime.Lt (key b) (key y)
      · simp [hlt, DateTime.le_refl]
      · simpa [hlt] using DateTime.not_lt_iff.mp hlt
    refine ⟨DateTime.le_trans hby ih1, ?_⟩
    rintro z (rfl | hz)
    · exact DateTime.le_trans hyy ih1
    · exact ih2 z hz

theorem pyMaxBy_mem {α : Type} (key : α → DateTime) (l : List α) (x : α)
    (h : pyMaxBy key l = some x) : x ∈ l := by
  cases l with
  | nil => simp [pyMaxBy] at h
  | cons y ys =>
    simp only [pyMaxBy, Option.some.injEq] at h
    rcases pyMaxBy_foldl_mem key ys y with h0 | h0 <;> rw [← h]
    · rw [h0]; exact List.mem_cons_self _ _
    · exact List.mem_cons_of_mem _ h0

theorem pyMaxBy_ge {α : Type} (key : α → DateTime) (l : List α) (x : α)
    (h : pyMaxBy key l = some x) :
    ∀ y ∈ l, DateTime.Le (key y) (key x) := by
  cases l with
  | nil => simp [pyMaxBy] at h
  | cons z zs =>
    simp only [pyMaxBy, Option.some.injEq] at h
    obtain ⟨h1, h2⟩ := pyMaxBy_foldl_ge key zs z
    rw [h] at h1 h2
    intro y hy
    rcases List.mem_cons.mp hy with rfl | hy2
    · exact h1
    · exact h2 y hy2

theorem pyMaxBy_eq_none {α : Type} (key : α → DateTime) (l : List α) :
    pyMaxBy key l = none ↔ l = [] := by
  cases l <;> simp [pyMaxBy]

theorem pyMaxBy_isSome {α : Type} (key : α → DateTime) (l : List α)
    (h : l ≠ []) : ∃ x, pyMaxBy key l = some x := by
  cases l with
  | nil => exact absurd rfl h
  | cons y ys => exact ⟨_, rfl⟩

/-- The identity + code + exact-`valid_time` key test used by
`update_value`'s candidate comprehension. -/
def keyMatchB (r : TemporalRecord) (fn ln code : String) (vt : DateTime) :
    Bool :=
  decide (r.first_name = fn) && decide (r.last_name = ln) &&
    decide (r.loinc_num = code) && decide (r.valid_time = vt)

/-- The identity + code + same-calendar-day test shared by `query_value` and
`delete_value` (`r.valid_time.date() == date.date()`). -/
def dateKeyB (r : TemporalRecord) (fn ln code : String) (d : DateTime) :
    Bool :=
  decide (r.first_name = fn) && decide (r.last_name = ln) &&
    decide (r.loinc_num = code) && decide (r.valid_time.day = d.day)

/-- `update_value`'s candidate list, with each record paired with its
position in the store (the position stands for CPython object identity: the
in-place `current.system_to = t_update` becomes a `List.set` at it). -/
def updCands (recs : List TemporalRecord) (fn ln code : String)
    (vt : DateTime) (t : DateTime) : List (Nat × TemporalRecord) :=
  recs.enum.filter (fun p => keyMatchB p.2 fn ln code vt && is_alive_at p.2 t)

/-- Closing a version: the single-field in-place mutation
`rec.system_to = t`. -/
def mkClosed (r : TemporalRecord) (t : DateTime) : TemporalRecord :=
  { r with system_to := some t }

/-- The replacement version `update_value` appends: same identity, code,
valid time and unit, the new value, `system_from` = the update time,
`system_to` absent. -/
def mkNew (r : TemporalRecord) (nv : String) (t : DateTime) :
    TemporalRecord :=
  { first_name := r.first_name, last_name := r.last_name,
    loinc_num := r.loinc_num, value := nv, unit := r.unit,
    valid_time := r.valid_time, system_from := t,
    system_to := none }

/-- `TemporalDB.update_value`: close the current version (the alive
exact-`valid_time` match with greatest `system_from`) and append the
replacement; no state change when no candidate exists. -/
def update_value (db : TemporalDB) (fn ln code : String) (vt : DateTime)
    (nv : String) (tUpd : Option DateTime) : TemporalDB :=
  let t := tUpd.getD db.current_time
  match pyMaxBy (fun p => p.2.system_from)
      (updCands db.records fn ln code vt t) with
  | none => db
  | some (i, cur) =>
    { db with records :=
        (db.records.set i (mkClosed cur t)) ++ [mkNew cur nv t] }

/-- `delete_value`'s first candidate list: identity + code + same calendar
day + alive at the delete time, each paired with its store position. -/
def delCands (recs : List TemporalRecord) (fn ln code : String)
    (d : DateTime) (t : DateTime) : List (Nat × TemporalRecord) :=
  recs.enum.filter (fun p => dateKeyB p.2 fn ln code d && is_alive_at p.2 t)

/-- `delete_value`'s narrowing step: with an exact time, keep the records
whose `valid_time` has that time of day; without one, keep the records whose
`valid_time` attains the day's maximum (`max(r.valid_time for r in
candidates)`). -/
def delNarrow (cands : List (Nat × TemporalRecord)) (time : Option Nat) :
    List (Nat × TemporalRecord) :=
  match time with
  | some tm => cands.filter (fun p => decide (p.2.valid_time.tod = tm))
  | none =>
    match pyMaxBy (fun d => d) (cands.map (fun p => p.2.valid_time)) with
    | none => []
    | some mv => cands.filter (fun p => decide (p.2.valid_time = mv))

/-- `TemporalDB.delete_value`: logical delete — close the selected version
(greatest `system_from` among the narrowed alive candidates) with no
replacement; no state change in either not-found case. -/
def delete_value (db : TemporalDB) (fn ln code : String) (d : DateTime)
    (time : Option Nat) (tDel : Option DateTime) : TemporalDB :=
  let t := tDel.getD db.current_time
  let cands := delCands db.records fn ln code d t
  if cands.isEmpty then db
  else
    match pyMaxBy (fun p => p.2.system_from) (delNarrow cands time) with
    | none => db
    | some (i, target) =>
      { db with records := db.records.set i (mkClosed target t) }

/-- `self.loinc_name.get(loinc_num, loinc_num)`: catalog lookup falling back
to the raw code. -/
def lookupName (db : TemporalDB) (code : String) : String :=
  match db.loinc_name.lookup code with
  | some n => n
  | none => code

/-- The dictionary `query_value` returns for the chosen record. -/
structure ValueRow where
  first_name : String
  last_name : String
  loinc : String
  long_common_name : String
  value : String
  unit : String
  valid_time : DateTime
  system_from : DateTime
  system_to : Option DateTime
deriving DecidableEq

/-- The projection `query_value` builds from the selected record. -/
def mkValueRow (db : TemporalDB) (code : String) (r : TemporalRecord) :
    ValueRow :=
  { first_name := r.first_name, last_name := r.last_name,
    loinc := r.loinc_num, long_common_name := lookupName db code,
    value := r.value, unit := r.unit, valid_time := r.valid_time,
    system_from := r.system_from, system_to := r.system_to }

/-- `query_value`'s `candidates` local: identity + code + same calendar
day. -/
def qvCandidates (db : TemporalDB) (fn ln code : String) (d : DateTime) :
    List TemporalRecord :=
  db.records.filter (fun r => dateKeyB r fn ln code d)

/-- `query_value`'s `same_time` local (exact-time mode): candidates whose
`valid_time` has the given time of day. -/
def qvSameTime (db : TemporalDB) (fn ln code : String) (d : DateTime)
    (tm : Nat) : List TemporalRecord :=
  (qvCandidates db fn ln code d).filter
    (fun r => decide (r.valid_time.tod = tm))

/-- `query_value`'s `alive` local (exact-time mode): the exact-time matches
alive at the perspective time. -/
def qvAliveExact (db : TemporalDB) (fn ln code : String) (d : DateTime)
    (tm : Nat) (pt : DateTime) : List TemporalRecord :=
  (qvSameTime db fn ln code d tm).filter (fun r => is_alive_at r pt)

/-- `query_value`'s `alive` local (date-only mode): the day's candidates
alive at the perspective time. -/
def qvAliveDay (db : TemporalDB) (fn ln code : String) (d : DateTime)
    (pt : DateTime) : List TemporalRecord :=
  (qvCandidates db fn ln code d).filter (fun r => is_alive_at r pt)

/-- `TemporalDB.query_value`: bi-temporal point query.  `time` is the
optional exact time of day; `persp` the optional perspective time (defaults
to the clock).  Returns `none` for every "not found" case. -/
def query_value (db : TemporalDB) (fn ln code : String) (d : DateTime)
    (time : Option Nat) (persp : Option DateTime) : Option ValueRow :=
  let pt := persp.getD db.current_time
  if (qvCandidates db fn ln code d).isEmpty then none
  else
    let bestOpt : Option TemporalRecord :=
      match time with
      | some tm =>
        if (qvSameTime db fn ln code d tm).isEmpty then none
        else
          if (qvAliveExact db fn ln code d tm pt).isEmpty then none
          else pyMaxBy (fun r => r.system_from)
            (qvAliveExact db fn ln code d tm pt)
      | none =>
        if (qvAliveDay db fn ln code d pt).isEmpty then none
        else
          match pyMaxBy (fun v => v)
              ((qvAliveDay db fn ln code d pt).map
                (fun r => r.valid_time)) with
          | none => none
          | some mv =>
            pyMaxBy (fun r => r.system_from)
              ((qvAliveDay db fn ln code d pt).filter
                (fun r => decide (r.valid_time = mv)))
    match bestOpt with
    | none => none
    | some best => some (mkValueRow db code best)

/-- One row of `query_history`'s result list. -/
structure HistRow where
  valid_time : DateTime
  value : String
  unit : String
  system_from : DateTime
  system_to : Option DateTime
  long_common_name : String
deriving DecidableEq

/-- The projection `query_history` builds for each surviving group. -/
def mkHistRow (db : TemporalDB) (code : String) (r : TemporalRecord) :
    HistRow :=
  { valid_time := r.valid_time, value := r.value, unit := r.unit,
    system_from := r.system_from, system_to := r.system_to,
    long_common_name := lookupName db code }

/-- `query_history`'s double filter: identity + code + `valid_time` in the
inclusive `[vf, vt]` range, then `system_from` in the inclusive
`[txF, txT]` range. -/
def histFiltered (recs : List TemporalRecord) (fn ln code : String)
    (vf vt txF txT : DateTime) : List TemporalRecord :=
  (recs.filter (fun r =>
      decide (r.first_name = fn) && decide (r.last_name = ln) &&
        decide (r.loinc_num = code) &&
        decide (DateTime.Le vf r.valid_time) &&
        decide (DateTime.Le r.valid_time vt))).filter
    (fun r => decide (DateTime.Le txF r.system_from) &&
      decide (DateTime.Le r.system_from txT))

/-- The distinct `valid_time` keys of the survivors, in ascending order:
`sorted(groups.keys())` over the Python dict whose keys are the distinct
`valid_time`s in insertion order. -/
def histKeys (txf : List TemporalRecord) : List DateTime :=
  List.insertionSort DateTime.Le ((txf.map (fun r => r.valid_time)).dedup)

/-- The group of survivors sharing one `valid_time`. -/
def histGroup (txf : List TemporalRecord) (k : DateTime) :
    List TemporalRecord :=
  txf.filter (fun r => decide (r.valid_time = k))

/-- `TemporalDB.query_history`: defaulted transaction-time bounds
(`datetime(1900, 1, 1)` and the clock), the double filter, grouping by
`valid_time` keeping the greatest `system_from` per group (the Python dict
replaces only on a strictly greater `system_from`, which is exactly
`pyMaxBy` on each group), and the groups emitted in ascending `valid_time`
order (`sorted(groups.keys())`). -/
def query_history (db : TemporalDB) (fn ln code : String)
    (vf vt : DateTime) (txFrom txTo : Option DateTime) : List HistRow :=
  let txF := txFrom.getD epoch1900
  let txT := txTo.getD db.current_time
  let txf := histFiltered db.records fn ln code vf vt txF txT
  (histKeys txf).filterMap (fun k =>
    (pyMaxBy (fun r => r.system_from) (histGroup txf k)).map
      (mkHistRow db code))

/-! ## Mutation sequences and store invariants -/

/-- One call to the mutation engine, with its explicit mutation time (the
optional-time parameters default to the clock before the algorithm runs, so
an explicit time loses no generality). -/
inductive MutOp where
  | upd (fn ln code : String) (vt : DateTime) (nv : String) (t : DateTime)
  | del (fn ln code : String) (d : DateTime) (time : Option Nat)
      (t : DateTime)

/-- The mutation time of a call. -/
def opTime : MutOp → DateTime
  | .upd _ _ _ _ _ t => t
  | .del _ _ _ _ _ t => t

/-- Run one mutation against the store. -/
def applyOp (db : TemporalDB) : MutOp → TemporalDB
  | .upd fn ln code vt nv t => update_value db fn ln code vt nv (some t)
  | .del fn ln code d time t => delete_value db fn ln code d time (some t)

/-- Run a sequence of mutations left to right. -/
def applyOps (db : TemporalDB) (ops : List MutOp) : TemporalDB :=
  ops.foldl applyOp db

/-- The mutation times are non-decreasing and start no earlier than `T`. -/
def opsAdmissibleB : DateTime → List MutOp → Bool
  | _, [] => true
  | T, op :: rest =>
    decide (DateTime.Le T (opTime op)) && opsAdmissibleB (opTime op) rest

/-- Two records carry the same `(patient, testCode, validTime)` key. -/
def sameKeyB (r s : TemporalRecord) : Bool :=
  decide (r.first_name = s.first_name) &&
    decide (r.last_name = s.last_name) &&
    decide (r.loinc_num = s.loinc_num) &&
    decide (r.valid_time = s.valid_time)

/-- Two records violating the at-most-one-open-version invariant together:
same key, both with `system_to` absent. -/
def clashB (r s : TemporalRecord) : Bool :=
  sameKeyB r s && decide (r.system_to = none) && decide (s.system_to = none)

/-- The store invariant: no two (distinct positions of) records share a key
while both are open. -/
def noDoubleOpenB : List TemporalRecord → Bool
  | [] => true
  | r :: rs => rs.all (fun s => ! clashB r s) && noDoubleOpenB rs

/-- All transaction times of one record (its `system_from`, and its
`system_to` when present) are at most `T`. -/
def recBoundedB (r : TemporalRecord) (T : DateTime) : Bool :=
  decide (DateTime.Le r.system_from T) &&
    (match r.system_to with
     | none => true
     | some st => decide (DateTime.Le st T))

/-- All transaction times in the store are at most `T`. -/
def timesLeB (recs : List TemporalRecord) (T : DateTime) : Bool :=
  recs.all (fun r => recBoundedB r T)

theorem clashB_iff (r s : TemporalRecord) :
    clashB r s = true ↔
      (r.first_name = s.first_name ∧ r.last_name = s.last_name ∧
        r.loinc_num = s.loinc_num ∧ r.valid_time = s.valid_time ∧
        r.system_to = none ∧ s.system_to = none) := by
  simp [clashB, sameKeyB, Bool.and_eq_true, and_assoc]

theorem clashB_comm (r s : TemporalRecord) : clashB r s = clashB s r := by
  cases hrs : clashB r s <;> cases hsr : clashB s r <;> try rfl
  · obtain ⟨h1, h2, h3, h4, h5, h6⟩ := (clashB_iff s r).mp hsr
    rw [(clashB_iff r s).mpr ⟨h1.symm, h2.symm, h3.symm, h4.symm, h6, h5⟩]
      at hrs
    exact hrs.symm
  · obtain ⟨h1, h2, h3, h4, h5, h6⟩ := (clashB_iff r s).mp hrs
    rw [(clashB_iff s r).mpr ⟨h1.symm, h2.symm, h3.symm, h4.symm, h6, h5⟩]
      at hsr
    exact hsr

theorem noDoubleOpenB_iff_pairwise (recs : List TemporalRecord) :
    noDoubleOpenB recs = true ↔
      recs.Pairwise (fun r s => clashB r s = false) := by
  induction recs with
  | nil => simp [noDoubleOpenB]
  | cons r rs ih =>
    simp only [noDoubleOpenB, Bool.and_eq_true, List.all_eq_true,
      List.pairwise_cons, ih, Bool.not_eq_eq_eq_not, Bool.not_true]

theorem noDoubleOpen_iff_get? (recs : List TemporalRecord) :
    noDoubleOpenB recs = true ↔
      ∀ (i j : Nat) (r s : TemporalRecord), i < j → recs[i]? = some r →
        recs[j]? = some s → clashB r s = false := by
  rw [noDoubleOpenB_iff_pairwise, List.pairwise_iff_get]
  constructor
  · intro hp i j r s hij hi hj
    obtain ⟨hi2, hie⟩ := List.getElem?_eq_some_iff.mp hi
    obtain ⟨hj2, hje⟩ := List.getElem?_eq_some_iff.mp hj
    have := hp ⟨i, hi2⟩ ⟨j, hj2⟩ hij
    simpa [List.get_eq_getElem, hie, hje] using this
  · intro h i j hij
    exact h i.1 j.1 _ _ hij
      (by simp [List.getElem?_eq_getElem, i.2, List.get_eq_getElem])
      (by simp [List.getElem?_eq_getElem, j.2, List.get_eq_getElem])

theorem noDoubleOpen_get_ne {recs : List TemporalRecord}
    (h : noDoubleOpenB recs = true) {i j : Nat} {r s : TemporalRecord}
    (hne : i ≠ j) (hi : recs[i]? = some r) (hj : recs[j]? = some s) :
    clashB r s = false := by
  rcases Nat.lt_or_ge i j with hij | hij
  · exact (noDoubleOpen_iff_get? recs).mp h i j r s hij hi hj
  · have hji : j < i := Nat.lt_of_le_of_ne hij (fun e => hne e.symm)
    have := (noDoubleOpen_iff_get? recs).mp h j i s r hji hj hi
    rwa [clashB_comm] at this

theorem timesLeB_mono {recs : List TemporalRecord} {T t : DateTime}
    (h : timesLeB recs T = true) (hT : DateTime.Le T t) :
    timesLeB recs t = true := by
  simp only [timesLeB, List.all_eq_true] at *
  intro r hr
  have := h r hr
  simp only [recBoundedB, Bool.and_eq_true, decide_eq_true_eq] at *
  obtain ⟨h1, h2⟩ := this
  refine ⟨DateTime.le_trans h1 hT, ?_⟩
  cases hst : r.system_to with
  | none => simp
  | some st =>
    rw [hst] at h2
    simpa using DateTime.le_trans (by simpa using h2) hT

theorem timesLeB_mem {recs : List TemporalRecord} {T : DateTime}
    (h : timesLeB recs T = true) {r : TemporalRecord} (hr : r ∈ recs) :
    DateTime.Le r.system_from T ∧
      ∀ st, r.system_to = some st → DateTime.Le st T := by
  simp only [timesLeB, List.all_eq_true] at h
  have := h r hr
  simp only [recBoundedB, Bool.and_eq_true, decide_eq_true_eq] at this
  obtain ⟨h1, h2⟩ := this
  refine ⟨h1, fun st hst => ?_⟩
  rw [hst] at h2
  simpa using h2

/-- A record that is alive at `t`, in a store whose transaction times are
all at most `t`, must be open: its closing time, were it closed, would have
passed already. -/
theorem alive_open_of_bounded {r : TemporalRecord} {t : DateTime}
    (hb : ∀ st, r.system_to = some st → DateTime.Le st t)
    (ha : is_alive_at r t = true) : r.system_to = none := by
  cases hst : r.system_to with
  | none => rfl
  | some st =>
    have hle := hb st hst
    simp [is_alive_at, hst, hle] at ha

theorem mem_updCands {recs : List TemporalRecord} {fn ln code : String}
    {vt t : DateTime} {i : Nat} {r : TemporalRecord} :
    (i, r) ∈ updCands recs fn ln code vt t ↔
      recs[i]? = some r ∧ keyMatchB r fn ln code vt = true ∧
        is_alive_at r t = true := by
  simp [updCands, List.mem_filter, List.mk_mem_enum_iff_getElem?,
    Bool.and_eq_true, and_assoc]

theorem mem_delCands {recs : List TemporalRecord} {fn ln code : String}
    {d t : DateTime} {i : Nat} {r : TemporalRecord} :
    (i, r) ∈ delCands recs fn ln code d t ↔
      recs[i]? = some r ∧ dateKeyB r fn ln code d = true ∧
        is_alive_at r t = true := by
  simp [delCands, List.mem_filter, List.mk_mem_enum_iff_getElem?,
    Bool.and_eq_true, and_assoc]

theorem delNarrow_subset {cands : List (Nat × TemporalRecord)}
    {time : Option Nat} {p : Nat × TemporalRecord}
    (h : p ∈ delNarrow cands time) : p ∈ cands := by
  cases time with
  | some tm => exact (List.mem_filter.mp h).1
  | none =>
    simp only [delNarrow] at h
    split at h
    · exact absurd h (List.not_mem_nil p)
    · exact (List.mem_filter.mp h).1

theorem clashB_false_left {r s : TemporalRecord} (h : r.system_to ≠ none) :
    clashB r s = false := by
  cases hc : clashB r s
  · rfl
  · exact absurd ((clashB_iff r s).mp hc).2.2.2.2.1 h

theorem clashB_false_right {r s : TemporalRecord} (h : s.system_to ≠ none) :
    clashB r s = false := by
  cases hc : clashB r s
  · rfl
  · exact absurd ((clashB_iff r s).mp hc).2.2.2.2.2 h

/-- The positions of the list `update_value` leaves behind: the original
list with position `i` closed, and the replacement appended at the end. -/
theorem upd_list_get? {recs : List TemporalRecord} {i : Nat}
    {c b : TemporalRecord} (hin : i < recs.length) (x : Nat) :
    ((recs.set i c) ++ [b])[x]? =
      if x < recs.length then (if x = i then some c else recs[x]?)
      else if x = recs.length then some b else none := by
  rcases Nat.lt_trichotomy x recs.length with hx | hx | hx
  · rw [List.getElem?_append_left (by simpa using hx)]
    by_cases hxi : x = i
    · subst hxi
      simp [hx, List.getElem?_set_self (by simpa using hx)]
    · simp [hx, hxi, List.getElem?_set_ne (fun e => hxi e.symm)]
  · subst hx
    rw [List.getElem?_append_right (by simp)]
    simp
  · rw [List.getElem?_append_right (by simp; omega)]
    have h1 : ¬ x < recs.length := by omega
    have h2 : x ≠ recs.length := by omega
    have h3 : x - (recs.set i c).length ≠ 0 := by simp; omega
    simp only [h1, if_false, h2]
    rw [List.getElem?_eq_none]
    simp only [List.length_cons, List.length_nil]
    omega

/-- The positions of the list `delete_value` leaves behind: the original
list with position `i` closed. -/
theorem del_list_get? {recs : List TemporalRecord} {i : Nat}
    {c : TemporalRecord} (hin : i < recs.length) (x : Nat) :
    (recs.set i c)[x]? = if x = i then some c else recs[x]? := by
  by_cases hxi : x = i
  · subst hxi
    simp [List.getElem?_set_self (by simpa using hin)]
  · simp [hxi, List.getElem?_set_ne (fun e => hxi e.symm)]

/-- One `update_value` call with mutation time `t` at least every
transaction time in the store: it preserves the at-most-one-open invariant,
bounds all transaction times by `t`, and leaves every original position's
`system_from` — and its `system_to` when already set — unchanged. -/
theorem update_step {db : TemporalDB} {fn ln code : String} {vt : DateTime}
    {nv : String} {t T : DateTime} (hB : timesLeB db.records T = true)
    (hT : DateTime.Le T t) :
    (noDoubleOpenB db.records = true →
      noDoubleOpenB (update_value db fn ln code vt nv (some t)).records =
        true) ∧
    timesLeB (update_value db fn ln code vt nv (some t)).records t = true ∧
    (∀ (j : Nat) (r : TemporalRecord), db.records[j]? = some r →
      ∃ r2, (update_value db fn ln code vt nv (some t)).records[j]? =
          some r2 ∧ r2.system_from = r.system_from ∧
        ∀ st, r.system_to = some st → r2.system_to = some st) := by
  cases hmax : pyMaxBy (fun p => p.2.system_from)
      (updCands db.records fn ln code vt t) with
  | none =>
    have hres : update_value db fn ln code vt nv (some t) = db := by
      simp [update_value, hmax]
    rw [hres]
    exact ⟨fun h => h, timesLeB_mono hB hT,
      fun j r hj => ⟨r, hj, rfl, fun st hst => hst⟩⟩
  | some p =>
    obtain ⟨i, cur⟩ := p
    have hmem := pyMaxBy_mem _ _ _ hmax
    rw [mem_updCands] at hmem
    obtain ⟨hg, hk, ha⟩ := hmem
    have hin : i < db.records.length := (List.getElem?_eq_some_iff.mp hg).1
    have hcurmem : cur ∈ db.records := List.getElem?_mem hg
    have hbnd := timesLeB_mem hB hcurmem
    have hopen : cur.system_to = none :=
      alive_open_of_bounded
        (fun st hst => DateTime.le_trans (hbnd.2 st hst) hT) ha
    have hres : (update_value db fn ln code vt nv (some t)).records =
        (db.records.set i (mkClosed cur t)) ++ [mkNew cur nv t] := by
      simp [update_value, hmax]
    refine ⟨?_, ?_, ?_⟩
    · intro hU
      rw [hres, noDoubleOpen_iff_get?]
      intro a b r s hab hA2 hB2
      rw [upd_list_get? hin] at hA2 hB2
      by_cases hbn : b < db.records.length
      · have han : a < db.records.length := Nat.lt_trans hab hbn
        simp only [hbn, if_true] at hB2
        simp only [han, if_true] at hA2
        by_cases hbi : b = i
        · simp only [hbi, if_true] at hB2
          obtain rfl : mkClosed cur t = s := Option.some_inj.mp hB2
          exact clashB_false_right (by simp [mkClosed])
        · simp only [hbi, if_false] at hB2
          by_cases hai : a = i
          · simp only [hai, if_true] at hA2
            obtain rfl : mkClosed cur t = r := Option.some_inj.mp hA2
            exact clashB_false_left (by simp [mkClosed])
          · simp only [hai, if_false] at hA2
            exact (noDoubleOpen_iff_get? db.records).mp hU a b r s hab
              hA2 hB2
      · by_cases hbe : b = db.records.length
        · have han : a < db.records.length := by omega
          rw [hbe, if_neg (Nat.lt_irrefl _), if_pos rfl] at hB2
          simp only [han, if_true] at hA2
          obtain rfl : mkNew cur nv t = s := Option.some_inj.mp hB2
          by_cases hai : a = i
          · simp only [hai, if_true] at hA2
            obtain rfl : mkClosed cur t = r := Option.some_inj.mp hA2
            exact clashB_false_left (by simp [mkClosed])
          · simp only [hai, if_false] at hA2
            cases hc : clashB r (mkNew cur nv t)
            · rfl
            · exfalso
              obtain ⟨h1, h2, h3, h4, h5, h6⟩ := (clashB_iff _ _).mp hc
              simp only [mkNew] at h1 h2 h3 h4
              have hclash : clashB r cur = true :=
                (clashB_iff r cur).mpr ⟨h1, h2, h3, h4, h5, hopen⟩
              have hno := noDoubleOpen_get_ne hU hai hA2 hg
              rw [hclash] at hno
              exact Bool.noConfusion hno
        · simp only [hbn, if_false, hbe, if_false] at hB2
          exact absurd hB2 (Option.noConfusion)
    · rw [hres]
      simp only [timesLeB, List.all_eq_true]
      intro x hx
      rcases List.mem_append.mp hx with hx | hx
      · rcases List.mem_or_eq_of_mem_set hx with hx | rfl
        · have := timesLeB_mem (timesLeB_mono hB hT) hx
          simp only [recBoundedB, Bool.and_eq_true, decide_eq_true_eq]
          refine ⟨this.1, ?_⟩
          cases hst : x.system_to with
          | none => simp
          | some st => simpa using this.2 st hst
        · simp only [recBoundedB, mkClosed, Bool.and_eq_true,
            decide_eq_true_eq]
          exact ⟨DateTime.le_trans hbnd.1 hT, by simpa using DateTime.le_refl t⟩
      · rw [List.mem_singleton.mp hx]
        simp only [recBoundedB, mkNew, Bool.and_eq_true, decide_eq_true_eq]
        exact ⟨DateTime.le_refl t, by simp⟩
    · intro j r hj
      have hjn : j < db.records.length := (List.getElem?_eq_some_iff.mp hj).1
      rw [hres]
      by_cases hji : j = i
      · subst hji
        have hrc : r = cur := by
          rw [hj] at hg
          exact Option.some_inj.mp hg
        refine ⟨mkClosed cur t, ?_, by rw [hrc]; rfl, ?_⟩
        · rw [upd_list_get? hin]
          simp [hjn]
        · intro st hst
          rw [hrc, hopen] at hst
          exact absurd hst (Option.noConfusion)
      · refine ⟨r, ?_, rfl, fun st hst => hst⟩
        rw [upd_list_get? hin]
        simp [hjn, hji, hj]

/-- One `delete_value` call with mutation time `t` at least every
transaction time in the store: the same three preservation properties as
`update_step`. -/
theorem delete_step {db : TemporalDB} {fn ln code : String} {d : DateTime}
    {time : Option Nat} {t T : DateTime} (hB : timesLeB db.records T = true)
    (hT : DateTime.Le T t) :
    (noDoubleOpenB db.records = true →
      noDoubleOpenB (delete_value db fn ln code d time (some t)).records =
        true) ∧
    timesLeB (delete_value db fn ln code d time (some t)).records t = true ∧
    (∀ (j : Nat) (r : TemporalRecord), db.records[j]? = some r →
      ∃ r2, (delete_value db fn ln code d time (some t)).records[j]? =
          some r2 ∧ r2.system_from = r.system_from ∧
        ∀ st, r.system_to = some st → r2.system_to = some st) := by
  by_cases hemp : (delCands db.records fn ln code d t).isEmpty
  · have hres : delete_value db fn ln code d time (some t) = db := by
      simp [delete_value, hemp]
    rw [hres]
    exact ⟨fun h => h, timesLeB_mono hB hT,
      fun j r hj => ⟨r, hj, rfl, fun st hst => hst⟩⟩
  · cases hmax : pyMaxBy (fun p => p.2.system_from)
        (delNarrow (delCands db.records fn ln code d t) time) with
    | none =>
      have hres : delete_value db fn ln code d time (some t) = db := by
        simp [delete_value, hemp, hmax]
      rw [hres]
      exact ⟨fun h => h, timesLeB_mono hB hT,
        fun j r hj => ⟨r, hj, rfl, fun st hst => hst⟩⟩
    | some p =>
      obtain ⟨i, target⟩ := p
      have hmem := delNarrow_subset (pyMaxBy_mem _ _ _ hmax)
      rw [mem_delCands] at hmem
      obtain ⟨hg, hk, ha⟩ := hmem
      have hin : i < db.records.length :=
        (List.getElem?_eq_some_iff.mp hg).1
      have htgtmem : target ∈ db.records := List.getElem?_mem hg
      have hbnd := timesLeB_mem hB htgtmem
      have hopen : target.system_to = none :=
        alive_open_of_bounded
          (fun st hst => DateTime.le_trans (hbnd.2 st hst) hT) ha
      have hres : (delete_value db fn ln code d time (some t)).records =
          db.records.set i (mkClosed target t) := by
        simp [delete_value, hemp, hmax]
      refine ⟨?_, ?_, ?_⟩
      · intro hU
        rw [hres, noDoubleOpen_iff_get?]
        intro a b r s hab hA2 hB2
        rw [del_list_get? hin] at hA2 hB2
        by_cases hbi : b = i
        · simp only [hbi, if_true] at hB2
          obtain rfl : mkClosed target t = s := Option.some_inj.mp hB2
          exact clashB_false_right (by simp [mkClosed])
        · simp only [hbi, if_false] at hB2
          by_cases hai : a = i
          · simp only [hai, if_true] at hA2
            obtain rfl : mkClosed target t = r := Option.some_inj.mp hA2
            exact clashB_false_left (by simp [mkClosed])
          · simp only [hai, if_false] at hA2
            exact (noDoubleOpen_iff_get? db.records).mp hU a b r s hab
              hA2 hB2
      · rw [hres]
        simp only [timesLeB, List.all_eq_true]
        intro x hx
        rcases List.mem_or_eq_of_mem_set hx with hx | rfl
        · have := timesLeB_mem (timesLeB_mono hB hT) hx
          simp only [recBoundedB, Bool.and_eq_true, decide_eq_true_eq]
          refine ⟨this.1, ?_⟩
          cases hst : x.system_to with
          | none => simp
          | some st => simpa using this.2 st hst
        · simp only [recBoundedB, mkClosed, Bool.and_eq_true,
            decide_eq_true_eq]
          exact ⟨DateTime.le_trans hbnd.1 hT,
            by simpa using DateTime.le_refl t⟩
      · intro j r hj
        rw [hres]
        by_cases hji : j = i
        · subst hji
          have hrc : r = target := by
            rw [hj] at hg
            exact Option.some_inj.mp hg
          refine ⟨mkClosed target t, ?_, by rw [hrc]; rfl, ?_⟩
          · rw [del_list_get? hin]
            simp
          · intro st hst
            rw [hrc, hopen] at hst
            exact absurd hst (Option.noConfusion)
        · refine ⟨r, ?_, rfl, fun st hst => hst⟩
          rw [del_list_get? hin]
          simp [hji, hj]

/-- Any admissible mutation sequence (times non-decreasing, starting at or
after every transaction time already in the store) preserves the
at-most-one-open invariant and never disturbs an existing position's
`system_from` or already-set `system_to`. -/
theorem applyOps_invariants {ops : List MutOp} :
    ∀ {db : TemporalDB} {T : DateTime},
      timesLeB db.records T = true → opsAdmissibleB T ops = true →
      ((noDoubleOpenB db.records = true →
          noDoubleOpenB (applyOps db ops).records = true) ∧
        (∀ (j : Nat) (r : TemporalRecord), db.records[j]? = some r →
          ∃ r2, (applyOps db ops).records[j]? = some r2 ∧
            r2.system_from = r.system_from ∧
            ∀ st, r.system_to = some st → r2.system_to = some st)) := by
  induction ops with
  | nil =>
    intro db T _ _
    exact ⟨fun h => h, fun j r hj => ⟨r, hj, rfl, fun st hst => hst⟩⟩
  | cons op rest ih =>
    intro db T hB hA
    simp only [opsAdmissibleB, Bool.and_eq_true, decide_eq_true_eq] at hA
    obtain ⟨hT, hA2⟩ := hA
    have step : (noDoubleOpenB db.records = true →
          noDoubleOpenB (applyOp db op).records = true) ∧
        timesLeB (applyOp db op).records (opTime op) = true ∧
        (∀ (j : Nat) (r : TemporalRecord), db.records[j]? = some r →
          ∃ r2, (applyOp db op).records[j]? = some r2 ∧
            r2.system_from = r.system_from ∧
            ∀ st, r.system_to = some st → r2.system_to = some st) := by
      cases op with
      | upd fn ln code vt nv t => exact update_step hB hT
      | del fn ln code d time t => exact delete_step hB hT
    have hrest := ih step.2.1 hA2
    have hfold : applyOps db (op :: rest) = applyOps (applyOp db op) rest :=
      rfl
    rw [hfold]
    refine ⟨fun hU => hrest.1 (step.1 hU), fun j r hj => ?_⟩
    obtain ⟨r1, hr1, hsf1, hst1⟩ := step.2.2 j r hj
    obtain ⟨r2, hr2, hsf2, hst2⟩ := hrest.2 j r1 hr1
    exact ⟨r2, hr2, hsf2.trans hsf1,
      fun st hst => hst2 st (hst1 st hst)⟩

/-- One mutation — at ANY mutation time, admissible or not — keeps every
original position occupied with a record of unchanged `system_from`: both
mutations only ever replace one position by a `system_to`-only copy
(`mkClosed`) and, for update, append at the end. -/
theorem applyOp_system_from_stable (db : TemporalDB) (op : MutOp)
    (j : Nat) (r : TemporalRecord) (hj : db.records[j]? = some r) :
    ∃ r2, (applyOp db op).records[j]? = some r2 ∧
      r2.system_from = r.system_from := by
  have hjn : j < db.records.length := (List.getElem?_eq_some_iff.mp hj).1
  cases op with
  | upd fn ln code vt nv t =>
    cases hmax : pyMaxBy (fun p => p.2.system_from)
        (updCands db.records fn ln code vt t) with
    | none =>
      have hres : update_value db fn ln code vt nv (some t) = db := by
        simp [update_value, hmax]
      exact ⟨r, by simp only [applyOp, hres]; exact hj, rfl⟩
    | some p =>
      obtain ⟨i, cur⟩ := p
      have hg : db.records[i]? = some cur :=
        (mem_updCands.mp (pyMaxBy_mem _ _ _ hmax)).1
      have hin : i < db.records.length :=
        (List.getElem?_eq_some_iff.mp hg).1
      have hres : (update_value db fn ln code vt nv (some t)).records =
          (db.records.set i (mkClosed cur t)) ++ [mkNew cur nv t] := by
        simp [update_value, hmax]
      by_cases hji : j = i
      · subst hji
        have hrc : r = cur := by
          rw [hj] at hg
          exact Option.some_inj.mp hg
        refine ⟨mkClosed cur t, ?_, by rw [hrc]; rfl⟩
        simp only [applyOp, hres]
        rw [upd_list_get? hin]
        simp [hjn]
      · refine ⟨r, ?_, rfl⟩
        simp only [applyOp, hres]
        rw [upd_list_get? hin]
        simp [hjn, hji, hj]
  | del fn ln code d time t =>
    by_cases hemp : (delCands db.records fn ln code d t).isEmpty
    · have hres : delete_value db fn ln code d time (some t) = db := by
        simp [delete_value, hemp]
      exact ⟨r, by simp only [applyOp, hres]; exact hj, rfl⟩
    · cases hmax : pyMaxBy (fun p => p.2.system_from)
          (delNarrow (delCands db.records fn ln code d t) time) with
      | none =>
        have hres : delete_value db fn ln code d time (some t) = db := by
          simp [delete_value, hemp, hmax]
        exact ⟨r, by simp only [applyOp, hres]; exact hj, rfl⟩
      | some p =>
        obtain ⟨i, target⟩ := p
        have hg : db.records[i]? = some target :=
          (mem_delCands.mp
            (delNarrow_subset (pyMaxBy_mem _ _ _ hmax))).1
        have hin : i < db.records.length :=
          (List.getElem?_eq_some_iff.mp hg).1
        have hres : (delete_value db fn ln code d time (some t)).records =
            db.records.set i (mkClosed target t) := by
          simp [delete_value, hemp, hmax]
        by_cases hji : j = i
        · subst hji
          have hrc : r = target := by
            rw [hj] at hg
            exact Option.some_inj.mp hg
          refine ⟨mkClosed target t, ?_, by rw [hrc]; rfl⟩
          simp only [applyOp, hres]
          rw [del_list_get? hin]
          simp
        · refine ⟨r, ?_, rfl⟩
          simp only [applyOp, hres]
          rw [del_list_get? hin]
          simp [hji, hj]

/-- Unconditional `system_from` stability for ANY mutation sequence:
no admissibility assumptions at all. -/
theorem applyOps_system_from_stable (ops : List MutOp) :
    ∀ (db : TemporalDB) (j : Nat) (r : TemporalRecord),
      db.records[j]? = some r →
      ∃ r2, (applyOps db ops).records[j]? = some r2 ∧
        r2.system_from = r.system_from := by
  induction ops with
  | nil => exact fun db j r hj => ⟨r, hj, rfl⟩
  | cons op rest ih =>
    intro db j r hj
    obtain ⟨r1, hr1, hsf1⟩ := applyOp_system_from_stable db op j r hj
    obtain ⟨r2, hr2, hsf2⟩ := ih (applyOp db op) j r1 hr1
    exact ⟨r2, hr2, hsf2.trans hsf1⟩

/-! ## Concrete stores for the counterexamples and witnesses -/

/-- A version closed at day 700110. -/
def cexRecClosed : TemporalRecord :=
  ⟨"J", "D", "C", "a", "u", ⟨700100, 1000⟩, ⟨700100, 0⟩,
    some ⟨700110, 0⟩⟩

/-- Its open successor, transacted at day 700110. -/
def cexRecOpen : TemporalRecord :=
  ⟨"J", "D", "C", "b", "u", ⟨700100, 1000⟩, ⟨700110, 0⟩, none⟩

/-- A well-formed store: one closed version and its open successor for one
key. -/
def cexDB : TemporalDB :=
  ⟨⟨700200, 0⟩, [cexRecClosed, cexRecOpen], []⟩

/-- The result of an update whose update time (day 700105) lies in the
past, between the closed version's `system_from` and `system_to`. -/
def cexUpd : TemporalDB :=
  update_value cexDB "J" "D" "C" ⟨700100, 1000⟩ "z" (some ⟨700105, 0⟩)

/-- An admissible mutation sequence on `cexDB`: an update at day 700150,
then a date-only delete at day 700160. -/
def witOps : List MutOp :=
  [.upd "J" "D" "C" ⟨700100, 1000⟩ "w" ⟨700150, 0⟩,
    .del "J" "D" "C" ⟨700100, 0⟩ none ⟨700160, 0⟩]

/-! ## The claims -/

/-- C2 (amended): starting from a store in which each
`(patient, testCode, validTime)` key has at most one record with
`system_to` absent and whose transaction times are all bounded by `T`, any
sequence of `update_value`/`delete_value` calls whose mutation times are
non-decreasing and start no earlier than `T` leaves every key with at most
one open record.  (As frozen — without the admissibility proviso — the
claim is false: see the counterexample, a single update at a past time.) -/
theorem claim_C2_at_most_one_open (db : TemporalDB) (T : DateTime)
    (ops : List MutOp) (hB : timesLeB db.records T = true)
    (hU : noDoubleOpenB db.records = true)
    (hA : opsAdmissibleB T ops = true) :
    noDoubleOpenB (applyOps db ops).records = true :=
  (applyOps_invariants hB hA).1 hU

/-- C2 witness: the invariant survives a concrete update-then-delete
sequence on `cexDB`. -/
theorem claim_C2_witness :
    noDoubleOpenB (applyOps cexDB witOps).records = true :=
  claim_C2_at_most_one_open cexDB ⟨700110, 0⟩ witOps (by decide)
    (by decide) (by decide)

/-- C2 counterexample: `cexDB` satisfies the at-most-one-open invariant,
yet one `update_value` call whose update time (day 700105) lies before the
open version's `system_from` selects the old closed-but-then-alive version
and leaves the key with two open records. -/
theorem claim_C2_counterexample :
    noDoubleOpenB cexDB.records = true ∧
      noDoubleOpenB cexUpd.records = false := by
  decide

/-- C4 (amended): `system_from` at any store position is never modified by
ANY sequence of `update_value`/`delete_value` calls — unconditionally;
and, provided the mutation times are non-decreasing and no earlier than a
bound `T` on every transaction time already in the store, an already-set
`system_to` is never overwritten.  (As frozen, the `system_to` half is
false without the proviso: see the counterexample, where a past-time
update re-closes a closed version with a different time.) -/
theorem claim_C4_system_times_stable (db : TemporalDB) (ops : List MutOp)
    (j : Nat) (r : TemporalRecord) (hj : db.records[j]? = some r) :
    (∃ r2, (applyOps db ops).records[j]? = some r2 ∧
      r2.system_from = r.system_from) ∧
    (∀ T, timesLeB db.records T = true → opsAdmissibleB T ops = true →
      ∃ r2, (applyOps db ops).records[j]? = some r2 ∧
        r2.system_from = r.system_from ∧
        ∀ st, r.system_to = some st → r2.system_to = some st) :=
  ⟨applyOps_system_from_stable ops db j r hj,
    fun _ hB hA => (applyOps_invariants hB hA).2 j r hj⟩

/-- C4 witness: position 0 of `cexDB` keeps its `system_from` across the
concrete sequence `witOps` (first conjunct, unconditional), and — since
`witOps` is admissible from the bound day 700110 — also its already-set
`system_to` (second conjunct). -/
theorem claim_C4_witness :
    (∃ r2, (applyOps cexDB witOps).records[0]? = some r2 ∧
      r2.system_from = cexRecClosed.system_from) ∧
    (∃ r2, (applyOps cexDB witOps).records[0]? = some r2 ∧
      r2.system_from = cexRecClosed.system_from ∧
      ∀ st, cexRecClosed.system_to = some st → r2.system_to = some st) :=
  ⟨(claim_C4_system_times_stable cexDB witOps 0 cexRecClosed
      (by decide)).1,
    (claim_C4_system_times_stable cexDB witOps 0 cexRecClosed
      (by decide)).2 ⟨700110, 0⟩ (by decide) (by decide)⟩

/-- C4 counterexample: the record at position 0 of `cexDB` has
`system_to = some (day 700110)`; after one past-time `update_value` call
its `system_to` reads `some (day 700105)` — an already-set `system_to`
overwritten with a different value. -/
theorem claim_C4_counterexample :
    cexDB.records[0]?.map (fun r => r.system_to) =
        some (some ⟨700110, 0⟩) ∧
      cexUpd.records[0]?.map (fun r => r.system_to) =
        some (some ⟨700105, 0⟩) := by
  decide

/-- C1: `_is_alive_at(record, t)` is true iff
`record.system_from <= t` and (`record.system_to` absent or
`t < record.system_to`); as a Lean function of the record and the instant
it is pure and total by construction. -/
theorem claim_C1_is_alive_at_iff (r : TemporalRecord) (t : DateTime) :
    is_alive_at r t = true ↔
      (DateTime.Le r.system_from t ∧
        (r.system_to = none ∨
          ∃ st, r.system_to = some st ∧ DateTime.Lt t st)) := by
  unfold is_alive_at
  by_cases h1 : DateTime.Lt t r.system_from
  · have h2 : ¬ DateTime.Le r.system_from t := DateTime.not_le_iff.mpr h1
    simp [h1, h2]
  · have h2 : DateTime.Le r.system_from t := DateTime.not_lt_iff.mp h1
    simp only [h1, if_false]
    cases hst : r.system_to with
    | none => simp [h2]
    | some st =>
      by_cases h3 : DateTime.Le st t
      · have h4 : ¬ DateTime.Lt t st := DateTime.not_lt_iff.mpr h3
        simp [h3, h2, h4]
      · have h4 : DateTime.Lt t st := DateTime.not_le_iff.mp h3
        simp [h3, h2, h4]

/-- C10: the time-of-day component of the `date` argument of `query_value`
and `delete_value` is irrelevant — two date arguments on the same calendar
day give the same result and the same state change, because only
`date.date()` is ever consulted. -/
theorem claim_C10_date_time_irrelevant (db : TemporalDB)
    (fn ln code : String) (d1 d2 : DateTime) (time : Option Nat)
    (persp tDel : Option DateTime) (h : d1.day = d2.day) :
    query_value db fn ln code d1 time persp =
        query_value db fn ln code d2 time persp ∧
      delete_value db fn ln code d1 time tDel =
        delete_value db fn ln code d2 time tDel := by
  constructor
  · unfold query_value qvAliveDay qvAliveExact qvSameTime qvCandidates
      dateKeyB
    rw [h]
  · unfold delete_value delCands dateKeyB
    rw [h]

/-- C10 witness: two date arguments on day 700100 with different times of
day, against the concrete store `cexDB`. -/
theorem claim_C10_witness :
    query_value cexDB "J" "D" "C" ⟨700100, 300⟩ none none =
        query_value cexDB "J" "D" "C" ⟨700100, 400⟩ none none ∧
      delete_value cexDB "J" "D" "C" ⟨700100, 300⟩ none none =
        delete_value cexDB "J" "D" "C" ⟨700100, 400⟩ none none :=
  claim_C10_date_time_irrelevant cexDB "J" "D" "C" ⟨700100, 300⟩
    ⟨700100, 400⟩ none none none rfl

/-- C3: `update_value` selects, among the records matching identity, code
and exact `valid_time` that are alive at the update time, one with greatest
`system_from`; with no candidate the store is completely unchanged;
otherwise the selected position gets its `system_to` set to the update time
and exactly one new record is appended — same identity, code, `valid_time`
and unit, the new value, `system_from` = the update time, `system_to`
absent — with every other record, the clock and the catalog untouched. -/
theorem claim_C3_update_spec (db : TemporalDB) (fn ln code : String)
    (vt : DateTime) (nv : String) (t : DateTime) :
    (updCands db.records fn ln code vt t = [] →
      update_value db fn ln code vt nv (some t) = db) ∧
    (updCands db.records fn ln code vt t ≠ [] →
      ∃ (i : Nat) (cur : TemporalRecord),
        db.records[i]? = some cur ∧
        (i, cur) ∈ updCands db.records fn ln code vt t ∧
        (∀ p ∈ updCands db.records fn ln code vt t,
          DateTime.Le p.2.system_from cur.system_from) ∧
        (update_value db fn ln code vt nv (some t)).records =
          (db.records.set i (mkClosed cur t)) ++ [mkNew cur nv t] ∧
        (update_value db fn ln code vt nv (some t)).current_time =
          db.current_time ∧
        (update_value db fn ln code vt nv (some t)).loinc_name =
          db.loinc_name) := by
  constructor
  · intro h
    have hmax : pyMaxBy (fun p => p.2.system_from)
        (updCands db.records fn ln code vt t) = none :=
      (pyMaxBy_eq_none _ _).mpr h
    simp [update_value, hmax]
  · intro h
    obtain ⟨p, hp⟩ := pyMaxBy_isSome (fun p => p.2.system_from) _ h
    obtain ⟨i, cur⟩ := p
    have hmem := pyMaxBy_mem _ _ _ hp
    have hge := pyMaxBy_ge _ _ _ hp
    have hg : db.records[i]? = some cur := (mem_updCands.mp hmem).1
    refine ⟨i, cur, hg, hmem, fun q hq => hge q hq, ?_, ?_, ?_⟩ <;>
      simp [update_value, hp]

/-- C9: every `delete_value` call leaves the clock, the catalog and the
record count unchanged and never appends or removes a record; in each
not-found case the store is entirely unchanged, and otherwise exactly one
record — the one with greatest `system_from` among the narrowed alive
candidates — is replaced by a copy whose only changed field is `system_to`,
set to the delete time. -/
theorem claim_C9_delete_frame (db : TemporalDB) (fn ln code : String)
    (d : DateTime) (time : Option Nat) (t : DateTime) :
    (delete_value db fn ln code d time (some t)).current_time =
        db.current_time ∧
    (delete_value db fn ln code d time (some t)).loinc_name =
        db.loinc_name ∧
    (delete_value db fn ln code d time (some t)).records.length =
        db.records.length ∧
    (delCands db.records fn ln code d t = [] →
      delete_value db fn ln code d time (some t) = db) ∧
    (delNarrow (delCands db.records fn ln code d t) time = [] →
      delete_value db fn ln code d time (some t) = db) ∧
    (delNarrow (delCands db.records fn ln code d t) time ≠ [] →
      ∃ (i : Nat) (target : TemporalRecord),
        db.records[i]? = some target ∧
        (i, target) ∈ delNarrow (delCands db.records fn ln code d t) time ∧
        (∀ p ∈ delNarrow (delCands db.records fn ln code d t) time,
          DateTime.Le p.2.system_from target.system_from) ∧
        (delete_value db fn ln code d time (some t)).records =
          db.records.set i (mkClosed target t)) := by
  have hmain : (delCands db.records fn ln code d t = [] →
        delete_value db fn ln code d time (some t) = db) ∧
      (delNarrow (delCands db.records fn ln code d t) time = [] →
        delete_value db fn ln code d time (some t) = db) ∧
      (delNarrow (delCands db.records fn ln code d t) time ≠ [] →
        ∃ (i : Nat) (target : TemporalRecord),
          db.records[i]? = some target ∧
          (i, target) ∈
            delNarrow (delCands db.records fn ln code d t) time ∧
          (∀ p ∈ delNarrow (delCands db.records fn ln code d t) time,
            DateTime.Le p.2.system_from target.system_from) ∧
          (delete_value db fn ln code d time (some t)).records =
            db.records.set i (mkClosed target t)) := by
    refine ⟨fun h => by simp [delete_value, h], ?_, ?_⟩
    · intro h
      have hmax : pyMaxBy (fun p => p.2.system_from)
          (delNarrow (delCands db.records fn ln code d t) time) = none :=
        (pyMaxBy_eq_none _ _).mpr h
      by_cases hemp : (delCands db.records fn ln code d t).isEmpty
      · simp [delete_value, hemp]
      · simp [delete_value, hemp, hmax]
    · intro h
      obtain ⟨p, hp⟩ := pyMaxBy_isSome (fun p => p.2.system_from) _ h
      obtain ⟨i, target⟩ := p
      have hmem := pyMaxBy_mem _ _ _ hp
      have hge := pyMaxBy_ge _ _ _ hp
      have hg : db.records[i]? = some target :=
        (mem_delCands.mp (delNarrow_subset hmem)).1
      have hemp : (delCands db.records fn ln code d t).isEmpty = false := by
        rw [List.isEmpty_eq_false]
        intro he
        rw [he] at hmem
        cases time with
        | some tm => simp [delNarrow] at hmem
        | none => simp [delNarrow, pyMaxBy] at hmem
      exact ⟨i, target, hg, hmem, fun q hq => hge q hq,
        by simp [delete_value, hemp, hp]⟩
  refine ⟨?_, ?_, ?_, hmain⟩
  · by_cases hemp : (delCands db.records fn ln code d t).isEmpty
    · simp [delete_value, hemp]
    · cases hp : pyMaxBy (fun p => p.2.system_from)
          (delNarrow (delCands db.records fn ln code d t) time) with
      | none => simp [delete_value, hemp, hp]
      | some p => simp [delete_value, hemp, hp]
  · by_cases hemp : (delCands db.records fn ln code d t).isEmpty
    · simp [delete_value, hemp]
    · cases hp : pyMaxBy (fun p => p.2.system_from)
          (delNarrow (delCands db.records fn ln code d t) time) with
      | none => simp [delete_value, hemp, hp]
      | some p => simp [delete_value, hemp, hp]
  · by_cases hemp : (delCands db.records fn ln code d t).isEmpty
    · simp [delete_value, hemp]
    · cases hp : pyMaxBy (fun p => p.2.system_from)
          (delNarrow (delCands db.records fn ln code d t) time) with
      | none => simp [delete_value, hemp, hp]
      | some p => simp [delete_value, hemp, hp]

/-- C3 witness: the non-empty-candidates branch of `claim_C3_update_spec`
at a concrete store and update time. -/
theorem claim_C3_witness :
    updCands cexDB.records "J" "D" "C" ⟨700100, 1000⟩ ⟨700150, 0⟩ ≠ [] ∧
      (∃ (i : Nat) (cur : TemporalRecord),
        cexDB.records[i]? = some cur ∧
        (i, cur) ∈ updCands cexDB.records "J" "D" "C" ⟨700100, 1000⟩
          ⟨700150, 0⟩ ∧
        (∀ p ∈ updCands cexDB.records "J" "D" "C" ⟨700100, 1000⟩
          ⟨700150, 0⟩, DateTime.Le p.2.system_from cur.system_from) ∧
        (update_value cexDB "J" "D" "C" ⟨700100, 1000⟩ "w"
            (some ⟨700150, 0⟩)).records =
          (cexDB.records.set i (mkClosed cur ⟨700150, 0⟩)) ++
            [mkNew cur "w" ⟨700150, 0⟩] ∧
        (update_value cexDB "J" "D" "C" ⟨700100, 1000⟩ "w"
            (some ⟨700150, 0⟩)).current_time = cexDB.current_time ∧
        (update_value cexDB "J" "D" "C" ⟨700100, 1000⟩ "w"
            (some ⟨700150, 0⟩)).loinc_name = cexDB.loinc_name) :=
  ⟨by decide,
    (claim_C3_update_spec cexDB "J" "D" "C" ⟨700100, 1000⟩ "w"
      ⟨700150, 0⟩).2 (by decide)⟩

/-- C9 witness: the single-record-closed branch of `claim_C9_delete_frame`
at a concrete store and delete time. -/
theorem claim_C9_witness :
    delNarrow (delCands cexDB.records "J" "D" "C" ⟨700100, 0⟩
        ⟨700160, 0⟩) none ≠ [] ∧
      (∃ (i : Nat) (target : TemporalRecord),
        cexDB.records[i]? = some target ∧
        (i, target) ∈ delNarrow (delCands cexDB.records "J" "D" "C"
          ⟨700100, 0⟩ ⟨700160, 0⟩) none ∧
        (∀ p ∈ delNarrow (delCands cexDB.records "J" "D" "C" ⟨700100, 0⟩
          ⟨700160, 0⟩) none,
          DateTime.Le p.2.system_from target.system_from) ∧
        (delete_value cexDB "J" "D" "C" ⟨700100, 0⟩ none
            (some ⟨700160, 0⟩)).records =
          cexDB.records.set i (mkClosed target ⟨700160, 0⟩)) :=
  ⟨by decide,
    (claim_C9_delete_frame cexDB "J" "D" "C" ⟨700100, 0⟩ none
      ⟨700160, 0⟩).2.2.2.2.2 (by decide)⟩

/-- C5: with an exact time supplied, `query_value` returns "not found"
exactly when (a) no record matches identity, code and the calendar date,
or (b) no date match has the given time of day, or (c) no exact-time match
is alive at the perspective time; otherwise it returns the projection of
the alive exact-time match with greatest `system_from`. -/
theorem claim_C5_query_exact (db : TemporalDB) (fn ln code : String)
    (d : DateTime) (tm : Nat) (persp : Option DateTime) :
    (query_value db fn ln code d (some tm) persp = none ↔
      (qvCandidates db fn ln code d = [] ∨
        qvSameTime db fn ln code d tm = [] ∨
        qvAliveExact db fn ln code d tm (persp.getD db.current_time) =
          [])) ∧
    (∀ row, query_value db fn ln code d (some tm) persp = some row →
      ∃ best,
        pyMaxBy (fun r => r.system_from)
            (qvAliveExact db fn ln code d tm
              (persp.getD db.current_time)) = some best ∧
        row = mkValueRow db code best ∧
        best ∈ qvAliveExact db fn ln code d tm
          (persp.getD db.current_time) ∧
        ∀ r ∈ qvAliveExact db fn ln code d tm
          (persp.getD db.current_time),
          DateTime.Le r.system_from best.system_from) := by
  by_cases hc : qvCandidates db fn ln code d = []
  · constructor
    · simp [query_value, hc]
    · intro row hrow
      simp [query_value, hc] at hrow
  · have hc2 : (qvCandidates db fn ln code d).isEmpty = false := by
      rw [List.isEmpty_eq_false]; exact hc
    by_cases hs : qvSameTime db fn ln code d tm = []
    · constructor
      · simp [query_value, hc2, hs]
      · intro row hrow
        simp [query_value, hc2, hs] at hrow
    · have hs2 : (qvSameTime db fn ln code d tm).isEmpty = false := by
        rw [List.isEmpty_eq_false]; exact hs
      by_cases ha : qvAliveExact db fn ln code d tm
          (persp.getD db.current_time) = []
      · constructor
        · simp [query_value, hc2, hs2, ha]
        · intro row hrow
          simp [query_value, hc2, hs2, ha] at hrow
      · have ha2 : (qvAliveExact db fn ln code d tm
            (persp.getD db.current_time)).isEmpty = false := by
          rw [List.isEmpty_eq_false]; exact ha
        obtain ⟨best, hb⟩ :=
          pyMaxBy_isSome (fun r => r.system_from) _ ha
        have hvp : query_value db fn ln code d (some tm) persp =
            some (mkValueRow db code best) := by
          simp [query_value, hc2, hs2, ha2, hb]
        constructor
        · rw [hvp]
          exact iff_of_false (by simp) (by simp [hc, hs, ha])
        · intro row hrow
          rw [hvp] at hrow
          obtain rfl := Option.some_inj.mp hrow
          exact ⟨best, hb, rfl, pyMaxBy_mem _ _ _ hb,
            pyMaxBy_ge _ _ _ hb⟩

/-- C6: with no time supplied, `query_value` keeps the day's candidates
alive at the perspective time, returns "not found" exactly when none is
alive, and otherwise returns the alive record of maximum `valid_time`,
ties on `valid_time` broken by greatest `system_from`. -/
theorem claim_C6_query_dateonly (db : TemporalDB) (fn ln code : String)
    (d : DateTime) (persp : Option DateTime) :
    (query_value db fn ln code d none persp = none ↔
      qvAliveDay db fn ln code d (persp.getD db.current_time) = []) ∧
    (∀ row, query_value db fn ln code d none persp = some row →
      ∃ best,
        row = mkValueRow db code best ∧
        best ∈ qvAliveDay db fn ln code d (persp.getD db.current_time) ∧
        (∀ r ∈ qvAliveDay db fn ln code d (persp.getD db.current_time),
          DateTime.Le r.valid_time best.valid_time) ∧
        (∀ r ∈ qvAliveDay db fn ln code d (persp.getD db.current_time),
          r.valid_time = best.valid_time →
            DateTime.Le r.system_from best.system_from)) := by
  by_cases hc : qvCandidates db fn ln code d = []
  · have ha : qvAliveDay db fn ln code d (persp.getD db.current_time) =
        [] := by
      unfold qvAliveDay
      rw [hc]
      rfl
    constructor
    · simp [query_value, hc, ha]
    · intro row hrow
      simp [query_value, hc] at hrow
  · have hc2 : (qvCandidates db fn ln code d).isEmpty = false := by
      rw [List.isEmpty_eq_false]; exact hc
    by_cases ha : qvAliveDay db fn ln code d
        (persp.getD db.current_time) = []
    · constructor
      · simp [query_value, hc2, ha]
      · intro row hrow
        simp [query_value, hc2, ha] at hrow
    · have ha2 : (qvAliveDay db fn ln code d
          (persp.getD db.current_time)).isEmpty = false := by
        rw [List.isEmpty_eq_false]; exact ha
      have hmapne : (qvAliveDay db fn ln code d
          (persp.getD db.current_time)).map (fun r => r.valid_time) ≠
            [] := by
        simp [ha]
      obtain ⟨mv, hmv⟩ := pyMaxBy_isSome (fun v => v) _ hmapne
      obtain ⟨r0, hr0, hr0v⟩ :=
        List.mem_map.mp (pyMaxBy_mem _ _ _ hmv)
      have hlatne : (qvAliveDay db fn ln code d
          (persp.getD db.current_time)).filter
            (fun r => decide (r.valid_time = mv)) ≠ [] := by
        intro he
        have : r0 ∈ (qvAliveDay db fn ln code d
            (persp.getD db.current_time)).filter
              (fun r => decide (r.valid_time = mv)) :=
          List.mem_filter.mpr ⟨hr0, by simp [hr0v]⟩
        rw [he] at this
        exact absurd this (List.not_mem_nil _)
      obtain ⟨best, hb⟩ :=
        pyMaxBy_isSome (fun r => r.system_from) _ hlatne
      have hbestlat := pyMaxBy_mem _ _ _ hb
      have hbestalive : best ∈ qvAliveDay db fn ln code d
          (persp.getD db.current_time) := (List.mem_filter.mp hbestlat).1
      have hbestv : best.valid_time = mv := by
        have := (List.mem_filter.mp hbestlat).2
        simpa using this
      have hvp : query_value db fn ln code d none persp =
          some (mkValueRow db code best) := by
        simp [query_value, hc2, ha2, hmv, hb]
      constructor
      · rw [hvp]
        exact iff_of_false (by simp) ha
      · intro row hrow
        rw [hvp] at hrow
        obtain rfl := Option.some_inj.mp hrow
        refine ⟨best, rfl, hbestalive, ?_, ?_⟩
        · intro r hr
          have hrv : r.valid_time ∈ (qvAliveDay db fn ln code d
              (persp.getD db.current_time)).map (fun x => x.valid_time) :=
            List.mem_map.mpr ⟨r, hr, rfl⟩
          have := pyMaxBy_ge (fun v => v) _ _ hmv r.valid_time hrv
          rw [hbestv]
          exact this
        · intro r hr hrv
          have : r ∈ (qvAliveDay db fn ln code d
              (persp.getD db.current_time)).filter
                (fun x => decide (x.valid_time = mv)) :=
            List.mem_filter.mpr ⟨hr, by simp [hrv, hbestv]⟩
          exact pyMaxBy_ge _ _ _ hb r this

/-- Scenario D's 08:00 measurement (time of day 800). -/
def dRec8 : TemporalRecord :=
  ⟨"J", "D", "C", "v8", "u", ⟨700100, 800⟩, ⟨700100, 900⟩, none⟩

/-- Scenario D's 14:00 measurement (time of day 1400). -/
def dRec14 : TemporalRecord :=
  ⟨"J", "D", "C", "v14", "u", ⟨700100, 1400⟩, ⟨700100, 1500⟩, none⟩

/-- Scenario D's store: two same-day open measurements for one key. -/
def dbScenD : TemporalDB := ⟨⟨700200, 0⟩, [dRec8, dRec14], []⟩

/-- C5 witness: the found branch of `claim_C5_query_exact` at the concrete
store `dbScenD`, exact time of day 1400. -/
theorem claim_C5_witness :
    query_value dbScenD "J" "D" "C" ⟨700100, 0⟩ (some 1400)
        (some ⟨700150, 0⟩) = some (mkValueRow dbScenD "C" dRec14) ∧
      (∃ best,
        pyMaxBy (fun r => r.system_from)
            (qvAliveExact dbScenD "J" "D" "C" ⟨700100, 0⟩ 1400
              ((some (⟨700150, 0⟩ : DateTime)).getD
                dbScenD.current_time)) = some best ∧
        mkValueRow dbScenD "C" dRec14 = mkValueRow dbScenD "C" best ∧
        best ∈ qvAliveExact dbScenD "J" "D" "C" ⟨700100, 0⟩ 1400
          ((some (⟨700150, 0⟩ : DateTime)).getD dbScenD.current_time) ∧
        ∀ r ∈ qvAliveExact dbScenD "J" "D" "C" ⟨700100, 0⟩ 1400
          ((some (⟨700150, 0⟩ : DateTime)).getD dbScenD.current_time),
          DateTime.Le r.system_from best.system_from) :=
  ⟨by decide,
    (claim_C5_query_exact dbScenD "J" "D" "C" ⟨700100, 0⟩ 1400
      (some ⟨700150, 0⟩)).2 (mkValueRow dbScenD "C" dRec14) (by decide)⟩

/-- C6 witness — the spec's Scenario D: with two alive same-day records at
times of day 800 and 1400, the date-only query selects the 1400 one; the
selection properties come from `claim_C6_query_dateonly` applied at the
concrete store. -/
theorem claim_C6_witness :
    query_value dbScenD "J" "D" "C" ⟨700100, 0⟩ none
        (some ⟨700150, 0⟩) = some (mkValueRow dbScenD "C" dRec14) ∧
      (∃ best,
        mkValueRow dbScenD "C" dRec14 = mkValueRow dbScenD "C" best ∧
        best ∈ qvAliveDay dbScenD "J" "D" "C" ⟨700100, 0⟩
          ((some (⟨700150, 0⟩ : DateTime)).getD dbScenD.current_time) ∧
        (∀ r ∈ qvAliveDay dbScenD "J" "D" "C" ⟨700100, 0⟩
          ((some (⟨700150, 0⟩ : DateTime)).getD dbScenD.current_time),
          DateTime.Le r.valid_time best.valid_time) ∧
        (∀ r ∈ qvAliveDay dbScenD "J" "D" "C" ⟨700100, 0⟩
          ((some (⟨700150, 0⟩ : DateTime)).getD dbScenD.current_time),
          r.valid_time = best.valid_time →
            DateTime.Le r.system_from best.system_from)) :=
  ⟨by decide,
    (claim_C6_query_dateonly dbScenD "J" "D" "C" ⟨700100, 0⟩
      (some ⟨700150, 0⟩)).2 (mkValueRow dbScenD "C" dRec14) (by decide)⟩

/-- C8 (amended): `query_history` with omitted transaction-time bounds
equals `query_history` with `txFrom = datetime(1900, 1, 1)` — a sentinel
early date, not the earliest representable timestamp — and
`txTo = currentTime()`.  (As frozen the claim is false: a record whose
`system_from` predates 1900-01-01 is excluded by the default lower bound
but kept when `txFrom` is the minimum representable timestamp; see the
counterexample.) -/
theorem claim_C8_default_bounds (db : TemporalDB) (fn ln code : String)
    (vf vt : DateTime) :
    query_history db fn ln code vf vt none none =
      query_history db fn ln code vf vt (some epoch1900)
        (some db.current_time) := rfl

/-- A record transacted at the minimum representable timestamp
(`datetime.min`, ordinal day 1), with a valid time on day 100. -/
def oldRec : TemporalRecord :=
  ⟨"J", "D", "C", "old", "u", ⟨100, 0⟩, dtMin, none⟩

/-- A store holding only `oldRec`. -/
def dbOld : TemporalDB := ⟨⟨700200, 0⟩, [oldRec], []⟩

/-- C8 counterexample: with omitted bounds `query_history` excludes
`oldRec` (its `system_from`, `datetime.min`, predates the 1900-01-01
default), while `txFrom` = the minimum representable timestamp and
`txTo` = the clock keep it — so the omitted-bounds call does not equal the
minimum-representable-lower-bound call. -/
theorem claim_C8_counterexample :
    query_history dbOld "J" "D" "C" ⟨90, 0⟩ ⟨110, 0⟩ none none = [] ∧
      query_history dbOld "J" "D" "C" ⟨90, 0⟩ ⟨110, 0⟩ (some dtMin)
          (some dbOld.current_time) =
        [mkHistRow dbOld "C" oldRec] := by
  constructor
  · decide
  · decide

theorem filterMap_eq_self {α : Type} {f : α → Option α} :
    ∀ {l : List α}, (∀ k ∈ l, f k = some k) → l.filterMap f = l := by
  intro l
  induction l with
  | nil => intro _; rfl
  | cons x xs ih =>
    intro h
    rw [List.filterMap_cons, h x (List.mem_cons_self x xs),
      ih (fun k hk => h k (List.mem_cons_of_mem x hk))]

theorem mem_histKeys {txf : List TemporalRecord} {k : DateTime} :
    k ∈ histKeys txf ↔ ∃ r ∈ txf, r.valid_time = k := by
  simp [histKeys, List.mem_dedup]

theorem mem_histGroup {txf : List TemporalRecord} {k : DateTime}
    {s : TemporalRecord} :
    s ∈ histGroup txf k ↔ s ∈ txf ∧ s.valid_time = k := by
  simp [histGroup]

theorem histGroup_ne_nil {txf : List TemporalRecord} {k : DateTime}
    (h : ∃ r ∈ txf, r.valid_time = k) : histGroup txf k ≠ [] := by
  obtain ⟨r, hr, hrv⟩ := h
  intro he
  have : r ∈ histGroup txf k := mem_histGroup.mpr ⟨hr, hrv⟩
  rw [he] at this
  exact absurd this (List.not_mem_nil _)

theorem histKeys_pairwise_lt (txf : List TemporalRecord) :
    List.Pairwise DateTime.Lt (histKeys txf) := by
  have hsorted : List.Sorted DateTime.Le (histKeys txf) :=
    List.sorted_insertionSort DateTime.Le _
  have hnodup : (histKeys txf).Nodup :=
    (List.perm_insertionSort DateTime.Le _).nodup_iff.mpr
      (List.nodup_dedup _)
  exact List.Pairwise.imp₂ (fun a b hle hne => DateTime.lt_of_le_ne hle hne)
    hsorted hnodup

/-- C7: with both transaction-time bounds given, `query_history` returns,
for each distinct `valid_time` among the doubly-filtered records, exactly
the row of the record with the greatest `system_from` for that
`valid_time` (alive or closed), as a sequence strictly ascending by
`valid_time` — hence with no duplicate `valid_time` entries. -/
theorem claim_C7_history_snapshot (db : TemporalDB) (fn ln code : String)
    (vf vt txF txT : DateTime) :
    List.Pairwise (fun a b => DateTime.Lt a.valid_time b.valid_time)
      (query_history db fn ln code vf vt (some txF) (some txT)) ∧
    (∀ v : DateTime,
      (∃ row ∈ query_history db fn ln code vf vt (some txF) (some txT),
        row.valid_time = v) ↔
      (∃ r ∈ histFiltered db.records fn ln code vf vt txF txT,
        r.valid_time = v)) ∧
    (∀ row ∈ query_history db fn ln code vf vt (some txF) (some txT),
      ∃ r ∈ histFiltered db.records fn ln code vf vt txF txT,
        row = mkHistRow db code r ∧
        ∀ s ∈ histFiltered db.records fn ln code vf vt txF txT,
          s.valid_time = r.valid_time →
            DateTime.Le s.system_from r.system_from) := by
  have hq : query_history db fn ln code vf vt (some txF) (some txT) =
      (histKeys (histFiltered db.records fn ln code vf vt txF txT)).filterMap
        (fun k =>
          (pyMaxBy (fun r => r.system_from)
              (histGroup (histFiltered db.records fn ln code vf vt txF txT)
                k)).map (mkHistRow db code)) := rfl
  refine ⟨?_, ?_, ?_⟩
  · have hmap : (query_history db fn ln code vf vt (some txF)
          (some txT)).map (fun row => row.valid_time) =
        histKeys (histFiltered db.records fn ln code vf vt txF txT) := by
      rw [hq, List.map_filterMap]
      apply filterMap_eq_self
      intro k hk
      obtain ⟨best, hb⟩ := pyMaxBy_isSome (fun r => r.system_from) _
        (histGroup_ne_nil (mem_histKeys.mp hk))
      have hbv : best.valid_time = k :=
        (mem_histGroup.mp (pyMaxBy_mem _ _ _ hb)).2
      simp [hb, mkHistRow, hbv]
    have hpl := histKeys_pairwise_lt
      (histFiltered db.records fn ln code vf vt txF txT)
    rw [← hmap] at hpl
    exact List.pairwise_map.mp hpl
  · intro v
    constructor
    · rintro ⟨row, hrow, hrv⟩
      rw [hq] at hrow
      obtain ⟨k, _, hgk⟩ := List.mem_filterMap.mp hrow
      obtain ⟨best, hb, hbrow⟩ := Option.map_eq_some'.mp hgk
      obtain ⟨hbtxf, hbk⟩ := mem_histGroup.mp (pyMaxBy_mem _ _ _ hb)
      refine ⟨best, hbtxf, ?_⟩
      rw [← hrv, ← hbrow]
      rfl
    · rintro ⟨r, hr, hrv⟩
      have hk : v ∈ histKeys
          (histFiltered db.records fn ln code vf vt txF txT) :=
        mem_histKeys.mpr ⟨r, hr, hrv⟩
      obtain ⟨best, hb⟩ := pyMaxBy_isSome (fun r => r.system_from) _
        (histGroup_ne_nil ⟨r, hr, hrv⟩)
      have hbv : best.valid_time = v :=
        (mem_histGroup.mp (pyMaxBy_mem _ _ _ hb)).2
      refine ⟨mkHistRow db code best, ?_, hbv⟩
      rw [hq]
      exact List.mem_filterMap.mpr ⟨v, hk, by simp [hb]⟩
  · intro row hrow
    rw [hq] at hrow
    obtain ⟨k, _, hgk⟩ := List.mem_filterMap.mp hrow
    obtain ⟨best, hb, hbrow⟩ := Option.map_eq_some'.mp hgk
    obtain ⟨hbtxf, hbk⟩ := mem_histGroup.mp (pyMaxBy_mem _ _ _ hb)
    refine ⟨best, hbtxf, hbrow.symm, ?_⟩
    intro s hs hsv
    have hsg : s ∈ histGroup
        (histFiltered db.records fn ln code vf vt txF txT) k :=
      mem_histGroup.mpr ⟨hs, by rw [hsv, hbk]⟩
    exact pyMaxBy_ge _ _ _ hb s hsg

/-! ## Scenario checks from the spec (A, B, C, E) -/

/-- Scenario A's single loaded record. -/
def aRec : TemporalRecord :=
  ⟨"J", "D", "C", "5", "u", ⟨700100, 1000⟩, ⟨700100, 1005⟩, none⟩

/-- Scenario A's store. -/
def dbScenA : TemporalDB := ⟨⟨700200, 0⟩, [aRec], [("C", "Nm")]⟩

theorem scenarioA_exact_query :
    (query_value dbScenA "J" "D" "C" ⟨700100, 0⟩ (some 1000)
        (some ⟨700150, 0⟩)).map (fun r => r.value) = some "5" := by
  decide

theorem scenarioB_update_time_travel :
    ((query_value (update_value dbScenA "J" "D" "C" ⟨700100, 1000⟩ "7"
          (some ⟨700101, 0⟩)) "J" "D" "C" ⟨700100, 0⟩ (some 1000)
        (some ⟨700102, 0⟩)).map (fun r => r.value) = some "7") ∧
      ((query_value (update_value dbScenA "J" "D" "C" ⟨700100, 1000⟩ "7"
            (some ⟨700101, 0⟩)) "J" "D" "C" ⟨700100, 0⟩ (some 1000)
          (some ⟨700100, 2300⟩)).map (fun r => r.value) = some "5") := by
  decide

theorem scenarioC_delete_time_travel :
    (query_value (delete_value dbScenA "J" "D" "C" ⟨700100, 0⟩
          (some 1000) (some ⟨700131, 0⟩)) "J" "D" "C" ⟨700100, 0⟩
        (some 1000) (some ⟨700132, 0⟩) = none) ∧
      ((query_value (delete_value dbScenA "J" "D" "C" ⟨700100, 0⟩
            (some 1000) (some ⟨700131, 0⟩)) "J" "D" "C" ⟨700100, 0⟩
          (some 1000) (some ⟨700115, 0⟩)).map (fun r => r.value) =
        some "5") := by
  decide

/-- Scenario E's three versions of one `valid_time`, with increasing
`system_from`. -/
def eRec1 : TemporalRecord :=
  ⟨"J", "D", "C", "x1", "u", ⟨700100, 1000⟩, ⟨700100, 0⟩,
    some ⟨700110, 0⟩⟩

def eRec2 : TemporalRecord :=
  ⟨"J", "D", "C", "x2", "u", ⟨700100, 1000⟩, ⟨700110, 0⟩,
    some ⟨700120, 0⟩⟩

def eRec3 : TemporalRecord :=
  ⟨"J", "D", "C", "x3", "u", ⟨700100, 1000⟩, ⟨700120, 0⟩, none⟩

/-- Scenario E's store. -/
def dbScenE : TemporalDB := ⟨⟨700200, 0⟩, [eRec1, eRec2, eRec3], []⟩

theorem scenarioE_snapshot :
    ((query_history dbScenE "J" "D" "C" ⟨700090, 0⟩ ⟨700110, 0⟩
        (some dtMin) (some ⟨700115, 0⟩)).map (fun r => r.value) =
      ["x2"]) ∧
      ((query_history dbScenE "J" "D" "C" ⟨700090, 0⟩ ⟨700110, 0⟩ none
          none).map (fun r => r.value) = ["x3"]) := by
  decide

end TemporalSpec
